import Mathlib

/-!
Verification development for the `debtk` CSV-resolution library.

The Rust sources are shallowly embedded:
* `src/errors.rs` and `src/lib.rs`: `Position` and `CsvError`.
* `src/csv/easy.rs`: `fast_stream_valid_csv` (a per-line state machine) and
  `fast_stream_csv_with_unescaped_delimiters` (row-shape repair).
  A reader is modelled as a list of already-split lines, each either a line
  (a list of characters) or an IO-error message, mirroring `BufRead::lines`.
* `src/csv/medium.rs`: `CharacterClass`, `ColumnComplexity` (byte-class
  histogram and gini impurity), and `Solution::new` / `default_heuristics`
  (the candidate scan and quote-constraint initialization).

Machine floats (`f64`) are modelled by exact rationals; the single NaN-producing
path (`0.0/0.0` when a histogram is empty) is modelled by `Option.none`.
-/

namespace Debtk

/-- `Position` from `src/lib.rs`: a 0-based line index and a column number. -/
structure Position where
  line : Nat
  column : Nat
deriving DecidableEq, Repr

/-- `CsvError` from `src/errors.rs`: an IO failure (carrying the rendered
message), an ambiguous parse, or invalid input, the latter two tagged with a
`Position` and a static cause string. -/
inductive CsvError where
  | Io : String → CsvError
  | Ambiguity : Position → String → CsvError
  | Invalid : Position → String → CsvError
deriving DecidableEq, Repr

/-- The `while let Some(ch) = chars.next()` loop of `fast_stream_valid_csv`
(`src/csv/easy.rs`, lines 18–34): arguments are the remaining characters of
the line, the `within_quotes` flag, and the `current_field` accumulator; the
final `row.push(current_field)` is the base case. A doubled quote inside a
quoted region emits a literal quote; otherwise a quote toggles the flag; an
unquoted delimiter closes the current field. The iterator's single-character
peek is embedded as a two-character lookahead pattern (in the one-character
case the peek returns nothing, so the quote branch always toggles). -/
def parse_line (delim quote : Char) : List Char → Bool → List Char → List (List Char)
  | [], _wq, cur => [cur]
  | [ch], wq, cur =>
    if ch = quote then
      parse_line delim quote [] (!wq) cur
    else if ch = delim ∧ wq = false then
      cur :: parse_line delim quote [] wq []
    else
      parse_line delim quote [] wq (cur ++ [ch])
  | ch :: ch2 :: rest, wq, cur =>
    if ch = quote then
      if wq = true ∧ ch2 = quote then
        parse_line delim quote rest wq (cur ++ [quote])
      else
        parse_line delim quote (ch2 :: rest) (!wq) cur
    else if ch = delim ∧ wq = false then
      cur :: parse_line delim quote (ch2 :: rest) wq []
    else
      parse_line delim quote (ch2 :: rest) wq (cur ++ [ch])

/-- `fast_stream_valid_csv` from `src/csv/easy.rs`: maps the line reader's
output; an IO error from the reader is propagated (wrapped via
`From<io::Error>` as `CsvError::Io`), and every actual line is parsed by the
state-machine loop starting with `within_quotes = false` and an empty field. -/
def fast_stream_valid_csv (delim quote : Char)
    (reader : List (Except String (List Char))) :
    List (Except CsvError (List (List Char))) :=
  reader.map fun lr =>
    match lr with
    | .error e => .error (CsvError.Io e)
    | .ok line => .ok (parse_line delim quote line false [])

/-- Modelled from the spec: the trivial single-pass tokenization of a line —
fields split at every delimiter occurrence. Used as the reference value the
resolution output is compared against on well-formed input. -/
def trivial_tokenization (delim : Char) : List Char → List (List Char)
  | [] => [[]]
  | ch :: rest =>
    if ch = delim then
      [] :: trivial_tokenization delim rest
    else
      match trivial_tokenization delim rest with
      | [] => [[ch]]
      | f :: fs => (ch :: f) :: fs

theorem trivial_tokenization_ne_nil (delim : Char) (l : List Char) :
    trivial_tokenization delim l ≠ [] := by
  cases l with
  | nil => simp [trivial_tokenization]
  | cons ch rest =>
    simp only [trivial_tokenization]
    split
    · simp
    · split
      · simp
      · simp

/-- Prepend an accumulated field prefix onto the first field of a row. -/
def cons_cat (cur : List Char) : List (List Char) → List (List Char)
  | [] => [cur]
  | f :: fs => (cur ++ f) :: fs

theorem cons_cat_nil_of_ne_nil (m : List (List Char)) (h : m ≠ []) :
    cons_cat [] m = m := by
  cases m with
  | nil => exact absurd rfl h
  | cons f fs => simp [cons_cat]

/-- Outside quotes, a non-quote character either closes the field (when it is
the delimiter) or is appended to the accumulator. -/
theorem parse_line_cons_of_ne_quote (delim quote ch : Char) (rest cur : List Char)
    (hch : ch ≠ quote) :
    parse_line delim quote (ch :: rest) false cur =
      if ch = delim then
        cur :: parse_line delim quote rest false []
      else
        parse_line delim quote rest false (cur ++ [ch]) := by
  cases rest with
  | nil =>
    by_cases hd : ch = delim
    · subst hd; simp [parse_line, hch]
    · simp [parse_line, hch, hd]
  | cons ch2 rest2 =>
    by_cases hd : ch = delim
    · subst hd; simp [parse_line, hch]
    · simp [parse_line, hch, hd]

/-- Inside quotes, a non-quote character (a delimiter included) is always
appended to the accumulator. -/
theorem parse_line_cons_within (delim quote ch : Char) (rest cur : List Char)
    (hch : ch ≠ quote) :
    parse_line delim quote (ch :: rest) true cur =
      parse_line delim quote rest true (cur ++ [ch]) := by
  cases rest with
  | nil => simp [parse_line, hch]
  | cons ch2 rest2 => simp [parse_line, hch]

/-- A quote outside quotes opens a quoted region. -/
theorem parse_line_open_quote (delim quote : Char) (rest cur : List Char) :
    parse_line delim quote (quote :: rest) false cur =
      parse_line delim quote rest true cur := by
  cases rest with
  | nil => simp [parse_line]
  | cons ch2 rest2 => simp [parse_line]

/-- A doubled quote inside a quoted region emits one literal quote. -/
theorem parse_line_escaped_quote (delim quote : Char) (rest cur : List Char) :
    parse_line delim quote (quote :: quote :: rest) true cur =
      parse_line delim quote rest true (cur ++ [quote]) := by
  simp [parse_line]

/-- A quote inside a quoted region not followed by another quote closes it. -/
theorem parse_line_close_quote (delim quote : Char) (rest cur : List Char)
    (h : rest.head? ≠ some quote) :
    parse_line delim quote (quote :: rest) true cur =
      parse_line delim quote rest false cur := by
  cases rest with
  | nil => simp [parse_line]
  | cons ch2 rest2 =>
    have : ch2 ≠ quote := by simpa using h
    simp [parse_line, this]

/-- On a quote-free line, the state machine is exactly the trivial split,
with the pending accumulator glued onto the first resulting field. -/
theorem parse_line_eq_trivial (delim quote : Char) (l : List Char)
    (hq : quote ∉ l) (cur : List Char) :
    parse_line delim quote l false cur =
      cons_cat cur (trivial_tokenization delim l) := by
  induction l generalizing cur with
  | nil => simp [parse_line, trivial_tokenization, cons_cat]
  | cons ch rest ih =>
    have hch : ch ≠ quote := fun h => hq (h ▸ List.mem_cons_self ch rest)
    have hrest : quote ∉ rest := fun h => hq (List.mem_cons_of_mem ch h)
    rw [parse_line_cons_of_ne_quote delim quote ch rest cur hch]
    by_cases hd : ch = delim
    · rw [if_pos hd, ih hrest,
        cons_cat_nil_of_ne_nil _ (trivial_tokenization_ne_nil delim rest)]
      simp [trivial_tokenization, hd, cons_cat]
    · rw [if_neg hd, ih hrest]
      simp only [trivial_tokenization, if_neg hd]
      rcases hm : trivial_tokenization delim rest with _ | ⟨f, fs⟩
      · exact absurd hm (trivial_tokenization_ne_nil delim rest)
      · simp [cons_cat]

/-- C1: on well-formed input — no quote character occurs anywhere, so no field
data contains an unescaped delimiter, quote, or newline beyond the structural
ones — `fast_stream_valid_csv` yields exactly the trivial single-pass
tokenization of each line (fields split at delimiter occurrences), and the
output sequence has exactly one row per input line.  Instantiated at the
concrete scenario `a,b,c` / `1,2,3` / `4,5,6` by the witness. -/
theorem fast_stream_valid_csv_wellformed (delim quote : Char)
    (input : List (List Char)) (h : ∀ l ∈ input, quote ∉ l) :
    fast_stream_valid_csv delim quote (input.map Except.ok) =
      input.map (fun l => Except.ok (trivial_tokenization delim l)) := by
  unfold fast_stream_valid_csv
  rw [List.map_map]
  refine List.map_congr_left (fun l hl => ?_)
  simp only [Function.comp_apply]
  rw [parse_line_eq_trivial delim quote l (h l hl) [],
    cons_cat_nil_of_ne_nil _ (trivial_tokenization_ne_nil delim l)]

theorem fast_stream_valid_csv_wellformed_witness :
    fast_stream_valid_csv ',' '"'
        [Except.ok ['a', ',', 'b', ',', 'c'],
          Except.ok ['1', ',', '2', ',', '3'],
          Except.ok ['4', ',', '5', ',', '6']] =
      [Except.ok [['a'], ['b'], ['c']],
        Except.ok [['1'], ['2'], ['3']],
        Except.ok [['4'], ['5'], ['6']]] :=
  (fast_stream_valid_csv_wellformed ',' '"'
      [['a', ',', 'b', ',', 'c'], ['1', ',', '2', ',', '3'],
        ['4', ',', '5', ',', '6']] (by decide)).trans rfl

/-- The static cause string used by the row-shape repair
(`src/csv/easy.rs`, line 63). -/
def not_enough_columns_msg : String :=
  "Not enough columns. There may be an unescaped newline in a field."

/-- The per-row closure of `fast_stream_csv_with_unescaped_delimiters`
(`src/csv/easy.rs`, lines 54–84): a row with too few fields is an `Invalid`
error at `{line, column := expected_column_count}`; a row with too many fields
keeps the first `invalid_column_index` fields, joins the next
`apparent - expected + 1` fields with the delimiter into one field, and keeps
the remaining fields; a row of the expected shape passes through. -/
def fix_row (delim : Char) (invalid_column_index expected_column_count line : Nat)
    (row : List (List Char)) : Except CsvError (List (List Char)) :=
  let apparent_column_count := row.length
  if apparent_column_count < expected_column_count then
    Except.error (CsvError.Invalid ⟨line, expected_column_count⟩ not_enough_columns_msg)
  else if expected_column_count < apparent_column_count then
    Except.ok (row.take invalid_column_index ++
      List.intercalate [delim]
        ((row.drop invalid_column_index).take
          (apparent_column_count - expected_column_count + 1)) ::
      (row.drop invalid_column_index).drop
        (apparent_column_count - expected_column_count + 1))
  else
    Except.ok row

/-- `fast_stream_csv_with_unescaped_delimiters` from `src/csv/easy.rs`:
enumerate the rows of `fast_stream_valid_csv` (0-based) and repair each row's
shape; an error from the underlying stream propagates unchanged. -/
def fast_stream_csv_with_unescaped_delimiters (delim quote : Char)
    (invalid_column_index expected_column_count : Nat)
    (reader : List (Except String (List Char))) :
    List (Except CsvError (List (List Char))) :=
  (fast_stream_valid_csv delim quote reader).enum.map fun p =>
    match p.2 with
    | .error e => .error e
    | .ok row => fix_row delim invalid_column_index expected_column_count p.1 row

/-- C2: a row with more fields than expected is repaired into a row of exactly
`expected_column_count` fields: the fields before the absorbing index are
unchanged, the field at the absorbing index is the excess fields joined with
the delimiter, and the fields after it are the original trailing fields.
The second conjunct is the concrete scenario `a,b,c` / `1,2,3` / `4,5,6,7,8,9`
with expected count 3 and absorbing index 2, whose third row resolves to
`[4, 5, "6,7,8,9"]`. -/
theorem fix_row_merges_excess :
    (∀ (delim : Char) (invalid_column_index expected_column_count line : Nat)
        (row : List (List Char)),
        expected_column_count < row.length →
        invalid_column_index < expected_column_count →
        ∃ new_row,
          fix_row delim invalid_column_index expected_column_count line row =
            Except.ok new_row ∧
          new_row.length = expected_column_count ∧
          new_row.take invalid_column_index = row.take invalid_column_index ∧
          new_row[invalid_column_index]? =
            some (List.intercalate [delim]
              ((row.drop invalid_column_index).take
                (row.length - expected_column_count + 1))) ∧
          new_row.drop (invalid_column_index + 1) =
            row.drop (invalid_column_index +
              (row.length - expected_column_count + 1))) ∧
    fast_stream_csv_with_unescaped_delimiters ',' '"' 2 3
        [Except.ok ['a', ',', 'b', ',', 'c'],
          Except.ok ['1', ',', '2', ',', '3'],
          Except.ok ['4', ',', '5', ',', '6', ',', '7', ',', '8', ',', '9']] =
      [Except.ok [['a'], ['b'], ['c']],
        Except.ok [['1'], ['2'], ['3']],
        Except.ok [['4'], ['5'], ['6', ',', '7', ',', '8', ',', '9']]] := by
  constructor
  · intro delim idx expected line row hgt hidx
    refine ⟨row.take idx ++
      List.intercalate [delim] ((row.drop idx).take (row.length - expected + 1)) ::
        (row.drop idx).drop (row.length - expected + 1), ?_, ?_, ?_, ?_, ?_⟩
    · unfold fix_row
      rw [if_neg (by omega), if_pos hgt]
    · have hlen : (row.take idx).length = idx := by
        rw [List.length_take]
        omega
      simp only [List.length_append, List.length_cons, List.length_drop, hlen]
      omega
    · exact List.take_left' (by rw [List.length_take]; omega)
    · have hlen : (row.take idx).length = idx := by
        rw [List.length_take]
        omega
      rw [List.getElem?_append_right hlen.le, hlen]
      simp
    · rw [List.append_cons,
        List.drop_left' (by simp [List.length_take]; omega),
        List.drop_drop]
  · rfl

theorem fix_row_merges_excess_witness :
    ∃ new_row,
      fix_row ',' 2 3 2 [['4'], ['5'], ['6'], ['7'], ['8'], ['9']] =
        Except.ok new_row ∧
      new_row.length = 3 ∧
      new_row.take 2 = [['4'], ['5']] ∧
      new_row[2]? = some ['6', ',', '7', ',', '8', ',', '9'] ∧
      new_row.drop 3 = [] :=
  fix_row_merges_excess.1 ',' 2 3 2 [['4'], ['5'], ['6'], ['7'], ['8'], ['9']]
    (by decide) (by decide)

/-- C3: a row with strictly fewer fields than expected fails with
`CsvError.Invalid` carrying the 0-based row index as the line, the expected
column count as the column, and the fixed human-readable cause string.  The
second conjunct is the concrete scenario `a,b,c` / `1,2,3` / `4,5` with
expected count 3: the first two rows succeed and the third fails with
`Invalid` at `{line := 2, column := 3}`. -/
theorem fix_row_not_enough_columns :
    (∀ (delim : Char) (invalid_column_index expected_column_count line : Nat)
        (row : List (List Char)),
        row.length < expected_column_count →
        fix_row delim invalid_column_index expected_column_count line row =
          Except.error (CsvError.Invalid ⟨line, expected_column_count⟩
            not_enough_columns_msg)) ∧
    fast_stream_csv_with_unescaped_delimiters ',' '"' 2 3
        [Except.ok ['a', ',', 'b', ',', 'c'],
          Except.ok ['1', ',', '2', ',', '3'],
          Except.ok ['4', ',', '5']] =
      [Except.ok [['a'], ['b'], ['c']],
        Except.ok [['1'], ['2'], ['3']],
        Except.error (CsvError.Invalid ⟨2, 3⟩ not_enough_columns_msg)] := by
  constructor
  · intro delim idx expected line row hlt
    unfold fix_row
    rw [if_pos hlt]
  · rfl

theorem fix_row_not_enough_columns_witness :
    fix_row ',' 2 3 2 [['4'], ['5']] =
      Except.error (CsvError.Invalid ⟨2, 3⟩ not_enough_columns_msg) :=
  fix_row_not_enough_columns.1 ',' 2 3 2 [['4'], ['5']] (by decide)

/-- Inside a quoted region, every quote-free span is appended verbatim to the
accumulator (delimiters included). -/
theorem parse_line_within_append (delim quote : Char) (u : List Char)
    (hu : quote ∉ u) (t cur : List Char) :
    parse_line delim quote (u ++ t) true cur =
      parse_line delim quote t true (cur ++ u) := by
  induction u generalizing cur with
  | nil => simp
  | cons ch u' ih =>
    have hch : ch ≠ quote := fun h => hu (h ▸ List.mem_cons_self ch u')
    have hu' : quote ∉ u' := fun h => hu (List.mem_cons_of_mem ch h)
    rw [List.cons_append, parse_line_cons_within delim quote ch (u' ++ t) cur hch,
      ih hu']
    simp

/-- C8: a quoted cell whose content doubles an internal quote character
extracts to the content with the doubled quote reduced to a single literal
quote: for quote-free `u` and `v`, the line `"u""v"` parses to the single
field `u"v`.  Instantiated at the concrete field `"a""b"` (yielding `a"b`) by
the witness. -/
theorem parse_line_unescapes_doubled_quote (delim quote : Char) (u v : List Char)
    (hu : quote ∉ u) (hv : quote ∉ v) :
    parse_line delim quote (quote :: (u ++ quote :: quote :: (v ++ [quote])))
        false [] =
      [u ++ quote :: v] := by
  rw [parse_line_open_quote,
    parse_line_within_append delim quote u hu (quote :: quote :: (v ++ [quote])) [],
    List.nil_append, parse_line_escaped_quote,
    parse_line_within_append delim quote v hv [quote] (u ++ [quote]),
    parse_line_close_quote delim quote [] ((u ++ [quote]) ++ v) (by simp)]
  simp [parse_line]

theorem parse_line_unescapes_doubled_quote_witness :
    parse_line ',' '"' ['"', 'a', '"', '"', 'b', '"'] false [] =
      [['a', '"', 'b']] :=
  parse_line_unescapes_doubled_quote ',' '"' ['a'] ['b'] (by decide) (by decide)

/-- The line parser always produces at least one field: every branch of the
state machine ends by pushing the final accumulator. -/
theorem parse_line_length_pos (delim quote : Char) (l : List Char) (wq : Bool)
    (cur : List Char) : 1 ≤ (parse_line delim quote l wq cur).length := by
  have key : ∀ (n : Nat) (l : List Char), l.length ≤ n → ∀ (wq : Bool) (cur : List Char),
      1 ≤ (parse_line delim quote l wq cur).length := by
    intro n
    induction n with
    | zero =>
      intro l hl wq cur
      have hnil : l = [] := List.length_eq_zero.mp (Nat.le_zero.mp hl)
      subst hnil
      simp [parse_line]
    | succ n ih =>
      intro l hl wq cur
      match l with
      | [] => simp [parse_line]
      | [ch] =>
        have h0 : ([] : List Char).length ≤ n := by simp
        simp only [parse_line]
        split
        · exact ih [] h0 (!wq) cur
        · split
          · simp
          · exact ih [] h0 wq (cur ++ [ch])
      | ch :: ch2 :: rest =>
        have h1 : (ch2 :: rest).length ≤ n := by
          simp only [List.length_cons] at hl ⊢
          omega
        have h2 : rest.length ≤ n := by
          simp only [List.length_cons] at hl
          omega
        simp only [parse_line]
        split
        · split
          · exact ih rest h2 wq (cur ++ [quote])
          · exact ih (ch2 :: rest) h1 (!wq) cur
        · split
          · simp
          · exact ih (ch2 :: rest) h1 wq (cur ++ [ch])
  exact key l.length l (le_refl _) wq cur

/-- C10: every element that `fast_stream_valid_csv` yields is either an `Io`
error propagated from the reader or an `Ok` row of at least one field — it
never yields `Invalid` or `Ambiguity`.  The second conjunct shows an empty
line yields the single-field row `[""]`. -/
theorem fast_stream_valid_csv_never_invalid (delim quote : Char)
    (input : List (Except String (List Char)))
    (r : Except CsvError (List (List Char)))
    (hr : r ∈ fast_stream_valid_csv delim quote input) :
    ((∃ e, r = Except.error (CsvError.Io e)) ∨
      ∃ row, r = Except.ok row ∧ 1 ≤ row.length) ∧
    fast_stream_valid_csv delim quote [Except.ok []] = [Except.ok [[]]] := by
  constructor
  · rcases List.mem_map.mp hr with ⟨lr, _hlr, heq⟩
    cases lr with
    | error e => exact Or.inl ⟨e, heq.symm⟩
    | ok line =>
      exact Or.inr ⟨parse_line delim quote line false [], heq.symm,
        parse_line_length_pos delim quote line false []⟩
  · rfl

theorem fast_stream_valid_csv_never_invalid_witness :
    ((∃ e, (Except.ok [([] : List Char)] : Except CsvError (List (List Char))) =
        Except.error (CsvError.Io e)) ∨
      ∃ row, (Except.ok [([] : List Char)] : Except CsvError (List (List Char))) =
        Except.ok row ∧ 1 ≤ row.length) ∧
    fast_stream_valid_csv ',' '"' [Except.ok []] = [Except.ok [[]]] :=
  fast_stream_valid_csv_never_invalid ',' '"' [Except.ok []]
    (Except.ok [[]]) (List.Mem.head _)

/-- `CharacterClass` from `src/csv/medium.rs`: the fixed enumeration of
semantic byte classes, in discriminant order. -/
inductive CharacterClass where
  | Digit
  | Letter
  | Punctuation
  | Whitespace
  | Quote
  | Comma
  | Tab
  | Newline
  | Other
deriving DecidableEq, Repr, Fintype

/-- `u8::is_ascii_digit`. -/
def byte_is_ascii_digit (b : Nat) : Bool := 48 ≤ b && b ≤ 57

/-- `u8::is_ascii_alphabetic`. -/
def byte_is_ascii_alphabetic (b : Nat) : Bool :=
  (65 ≤ b && b ≤ 90) || (97 ≤ b && b ≤ 122)

/-- `u8::is_ascii_punctuation`. -/
def byte_is_ascii_punctuation (b : Nat) : Bool :=
  (33 ≤ b && b ≤ 47) || (58 ≤ b && b ≤ 64) || (91 ≤ b && b ≤ 96) ||
    (123 ≤ b && b ≤ 126)

/-- `u8::is_ascii_whitespace` (space, tab, line feed, form feed, carriage
return). -/
def byte_is_ascii_whitespace (b : Nat) : Bool :=
  b == 32 || b == 9 || b == 10 || b == 12 || b == 13

/-- `CharacterClass::from_byte` (`src/csv/medium.rs`, lines 38–52): the match
arms in source order — the literal bytes `"` (34), `,` (44), tab (9), LF (10)
and CR (13) first, then the ASCII guard arms, then the two catch-all arms
(both mapping to `Other`). Bytes are embedded as `Nat` values. -/
def CharacterClass.from_byte (b : Nat) : CharacterClass :=
  if b = 34 then CharacterClass.Quote
  else if b = 44 then CharacterClass.Comma
  else if b = 9 then CharacterClass.Tab
  else if b = 10 then CharacterClass.Newline
  else if b = 13 then CharacterClass.Newline
  else if byte_is_ascii_digit b then CharacterClass.Digit
  else if byte_is_ascii_alphabetic b then CharacterClass.Letter
  else if byte_is_ascii_punctuation b then CharacterClass.Punctuation
  else if byte_is_ascii_whitespace b then CharacterClass.Whitespace
  else if 127 < b then CharacterClass.Other
  else CharacterClass.Other

/-- C9: byte classification is total and pure — every one of the 256 byte
values maps to exactly one `CharacterClass` — and both carriage return (0x0D)
and line feed (0x0A) map to the `Newline` class. -/
theorem from_byte_total_and_cr_lf_newline :
    (∀ b : Fin 256, ∃! c : CharacterClass, CharacterClass.from_byte b.val = c) ∧
    CharacterClass.from_byte 13 = CharacterClass.Newline ∧
    CharacterClass.from_byte 10 = CharacterClass.Newline :=
  ⟨fun b => ⟨CharacterClass.from_byte b.val, rfl, fun _ hy => hy.symm⟩, rfl, rfl⟩

/-- `ColumnComplexity` from `src/csv/medium.rs`: the per-column histogram of
byte-class counts. The Rust `[usize; 9]` array indexed by the enum
discriminant is embedded as a function from `CharacterClass`. -/
structure ColumnComplexity where
  class_counts : CharacterClass → Nat

/-- One step of `ColumnComplexity::add_bytes`: increment the count of the
byte's class. -/
def ColumnComplexity.add_byte (x : ColumnComplexity) (b : Nat) : ColumnComplexity :=
  ⟨fun c => if c = CharacterClass.from_byte b then x.class_counts c + 1
    else x.class_counts c⟩

/-- `ColumnComplexity::add_bytes`: fold `add_byte` over a byte slice. -/
def ColumnComplexity.add_bytes (x : ColumnComplexity) (bytes : List Nat) :
    ColumnComplexity :=
  bytes.foldl ColumnComplexity.add_byte x

/-- `ColumnComplexity::default`: the all-zero histogram. -/
def ColumnComplexity.default : ColumnComplexity := ⟨fun _ => 0⟩

/-- `ColumnComplexity::from_byte_slice_iter`: accumulate the byte slices of an
iterator onto the default histogram. -/
def ColumnComplexity.from_byte_slice_iter (slices : List (List Nat)) :
    ColumnComplexity :=
  slices.foldl ColumnComplexity.add_bytes ColumnComplexity.default

/-- The `self.class_counts.iter().sum()` of `gini_impurity`: the nine class
counts added in discriminant order. -/
def ColumnComplexity.total (x : ColumnComplexity) : Nat :=
  x.class_counts CharacterClass.Digit + x.class_counts CharacterClass.Letter +
    x.class_counts CharacterClass.Punctuation +
    x.class_counts CharacterClass.Whitespace +
    x.class_counts CharacterClass.Quote + x.class_counts CharacterClass.Comma +
    x.class_counts CharacterClass.Tab + x.class_counts CharacterClass.Newline +
    x.class_counts CharacterClass.Other

/-- `ColumnComplexity::gini_impurity` (`src/csv/medium.rs`, lines 90–98):
`1 - Σ p·p` where `p` is each class count divided by the total count.  The
Rust code computes in `f64`; it is embedded over exact rationals, and the one
path on which the `f64` code produces NaN — an all-zero histogram, where every
proportion is `0.0 / 0.0` — is modelled as `none`. -/
def ColumnComplexity.gini_impurity (x : ColumnComplexity) : Option ℚ :=
  if x.total = 0 then none
  else
    let p : CharacterClass → ℚ := fun c => (x.class_counts c : ℚ) / (x.total : ℚ)
    some (1 -
      (p CharacterClass.Digit * p CharacterClass.Digit +
        p CharacterClass.Letter * p CharacterClass.Letter +
        p CharacterClass.Punctuation * p CharacterClass.Punctuation +
        p CharacterClass.Whitespace * p CharacterClass.Whitespace +
        p CharacterClass.Quote * p CharacterClass.Quote +
        p CharacterClass.Comma * p CharacterClass.Comma +
        p CharacterClass.Tab * p CharacterClass.Tab +
        p CharacterClass.Newline * p CharacterClass.Newline +
        p CharacterClass.Other * p CharacterClass.Other))

/-- The sum of squared class counts, used to rewrite the gini impurity over a
common denominator. -/
def ColumnComplexity.sq_sum (x : ColumnComplexity) : Nat :=
  x.class_counts CharacterClass.Digit * x.class_counts CharacterClass.Digit +
    x.class_counts CharacterClass.Letter * x.class_counts CharacterClass.Letter +
    x.class_counts CharacterClass.Punctuation * x.class_counts CharacterClass.Punctuation +
    x.class_counts CharacterClass.Whitespace * x.class_counts CharacterClass.Whitespace +
    x.class_counts CharacterClass.Quote * x.class_counts CharacterClass.Quote +
    x.class_counts CharacterClass.Comma * x.class_counts CharacterClass.Comma +
    x.class_counts CharacterClass.Tab * x.class_counts CharacterClass.Tab +
    x.class_counts CharacterClass.Newline * x.class_counts CharacterClass.Newline +
    x.class_counts CharacterClass.Other * x.class_counts CharacterClass.Other

theorem gini_impurity_eq_sq_sum (x : ColumnComplexity) (h : x.total ≠ 0) :
    x.gini_impurity =
      some (1 - (x.sq_sum : ℚ) / ((x.total : ℚ) * (x.total : ℚ))) := by
  unfold ColumnComplexity.gini_impurity
  rw [if_neg h]
  have ht : (x.total : ℚ) ≠ 0 := Nat.cast_ne_zero.mpr h
  have : (x.sq_sum : ℚ) =
      (x.class_counts CharacterClass.Digit : ℚ) * (x.class_counts CharacterClass.Digit : ℚ) +
      (x.class_counts CharacterClass.Letter : ℚ) * (x.class_counts CharacterClass.Letter : ℚ) +
      (x.class_counts CharacterClass.Punctuation : ℚ) * (x.class_counts CharacterClass.Punctuation : ℚ) +
      (x.class_counts CharacterClass.Whitespace : ℚ) * (x.class_counts CharacterClass.Whitespace : ℚ) +
      (x.class_counts CharacterClass.Quote : ℚ) * (x.class_counts CharacterClass.Quote : ℚ) +
      (x.class_counts CharacterClass.Comma : ℚ) * (x.class_counts CharacterClass.Comma : ℚ) +
      (x.class_counts CharacterClass.Tab : ℚ) * (x.class_counts CharacterClass.Tab : ℚ) +
      (x.class_counts CharacterClass.Newline : ℚ) * (x.class_counts CharacterClass.Newline : ℚ) +
      (x.class_counts CharacterClass.Other : ℚ) * (x.class_counts CharacterClass.Other : ℚ) := by
    unfold ColumnComplexity.sq_sum
    push_cast
    ring
  rw [this]
  field_simp

theorem class_counts_le_total (x : ColumnComplexity) (c : CharacterClass) :
    x.class_counts c ≤ x.total := by
  unfold ColumnComplexity.total
  cases c <;> omega

theorem sq_sum_le_total_mul (x : ColumnComplexity) (j : CharacterClass)
    (hdom : ∀ c, x.class_counts c ≤ x.class_counts j) :
    x.sq_sum ≤ x.total * x.class_counts j := by
  unfold ColumnComplexity.sq_sum ColumnComplexity.total
  have h1 := hdom CharacterClass.Digit
  have h2 := hdom CharacterClass.Letter
  have h3 := hdom CharacterClass.Punctuation
  have h4 := hdom CharacterClass.Whitespace
  have h5 := hdom CharacterClass.Quote
  have h6 := hdom CharacterClass.Comma
  have h7 := hdom CharacterClass.Tab
  have h8 := hdom CharacterClass.Newline
  have h9 := hdom CharacterClass.Other
  calc x.class_counts CharacterClass.Digit * x.class_counts CharacterClass.Digit +
        x.class_counts CharacterClass.Letter * x.class_counts CharacterClass.Letter +
        x.class_counts CharacterClass.Punctuation * x.class_counts CharacterClass.Punctuation +
        x.class_counts CharacterClass.Whitespace * x.class_counts CharacterClass.Whitespace +
        x.class_counts CharacterClass.Quote * x.class_counts CharacterClass.Quote +
        x.class_counts CharacterClass.Comma * x.class_counts CharacterClass.Comma +
        x.class_counts CharacterClass.Tab * x.class_counts CharacterClass.Tab +
        x.class_counts CharacterClass.Newline * x.class_counts CharacterClass.Newline +
        x.class_counts CharacterClass.Other * x.class_counts CharacterClass.Other ≤
        x.class_counts CharacterClass.Digit * x.class_counts j +
        x.class_counts CharacterClass.Letter * x.class_counts j +
        x.class_counts CharacterClass.Punctuation * x.class_counts j +
        x.class_counts CharacterClass.Whitespace * x.class_counts j +
        x.class_counts CharacterClass.Quote * x.class_counts j +
        x.class_counts CharacterClass.Comma * x.class_counts j +
        x.class_counts CharacterClass.Tab * x.class_counts j +
        x.class_counts CharacterClass.Newline * x.class_counts j +
        x.class_counts CharacterClass.Other * x.class_counts j := by
        gcongr
    _ = (x.class_counts CharacterClass.Digit + x.class_counts CharacterClass.Letter +
        x.class_counts CharacterClass.Punctuation + x.class_counts CharacterClass.Whitespace +
        x.class_counts CharacterClass.Quote + x.class_counts CharacterClass.Comma +
        x.class_counts CharacterClass.Tab + x.class_counts CharacterClass.Newline +
        x.class_counts CharacterClass.Other) * x.class_counts j := by ring

theorem sq_sum_le_total_sq (x : ColumnComplexity) :
    x.sq_sum ≤ x.total * x.total := by
  have step : ∀ c : CharacterClass,
      x.class_counts c * x.class_counts c ≤ x.class_counts c * x.total :=
    fun c => Nat.mul_le_mul_left _ (class_counts_le_total x c)
  unfold ColumnComplexity.sq_sum
  calc x.class_counts CharacterClass.Digit * x.class_counts CharacterClass.Digit +
        x.class_counts CharacterClass.Letter * x.class_counts CharacterClass.Letter +
        x.class_counts CharacterClass.Punctuation * x.class_counts CharacterClass.Punctuation +
        x.class_counts CharacterClass.Whitespace * x.class_counts CharacterClass.Whitespace +
        x.class_counts CharacterClass.Quote * x.class_counts CharacterClass.Quote +
        x.class_counts CharacterClass.Comma * x.class_counts CharacterClass.Comma +
        x.class_counts CharacterClass.Tab * x.class_counts CharacterClass.Tab +
        x.class_counts CharacterClass.Newline * x.class_counts CharacterClass.Newline +
        x.class_counts CharacterClass.Other * x.class_counts CharacterClass.Other ≤
        x.class_counts CharacterClass.Digit * x.total +
        x.class_counts CharacterClass.Letter * x.total +
        x.class_counts CharacterClass.Punctuation * x.total +
        x.class_counts CharacterClass.Whitespace * x.total +
        x.class_counts CharacterClass.Quote * x.total +
        x.class_counts CharacterClass.Comma * x.total +
        x.class_counts CharacterClass.Tab * x.total +
        x.class_counts CharacterClass.Newline * x.total +
        x.class_counts CharacterClass.Other * x.total := by
        gcongr <;> exact class_counts_le_total x _
    _ = x.total * x.total := by unfold ColumnComplexity.total; ring

theorem total_le_sq_sum (x : ColumnComplexity) : x.total ≤ x.sq_sum := by
  have h : ∀ m : Nat, m ≤ m * m := by
    intro m
    cases m with
    | zero => simp
    | succ k =>
      calc k + 1 = (k + 1) * 1 := by ring
        _ ≤ (k + 1) * (k + 1) := Nat.mul_le_mul_left _ (by omega)
  unfold ColumnComplexity.total ColumnComplexity.sq_sum
  exact add_le_add (add_le_add (add_le_add (add_le_add (add_le_add (add_le_add
    (add_le_add (add_le_add (h _) (h _)) (h _)) (h _)) (h _)) (h _)) (h _))
    (h _)) (h _)

theorem sq_term_le_sq_sum (x : ColumnComplexity) (c : CharacterClass) :
    x.class_counts c * x.class_counts c ≤ x.sq_sum := by
  have z : ∀ c' : CharacterClass, 0 ≤ x.class_counts c' * x.class_counts c' :=
    fun c' => Nat.zero_le _
  unfold ColumnComplexity.sq_sum
  cases c <;>
    linarith [z CharacterClass.Digit, z CharacterClass.Letter,
      z CharacterClass.Punctuation, z CharacterClass.Whitespace,
      z CharacterClass.Quote, z CharacterClass.Comma, z CharacterClass.Tab,
      z CharacterClass.Newline, z CharacterClass.Other]

/-- C6 (amended): for every column histogram with at least one recorded byte,
`gini_impurity` yields a rational value — by definition 1 minus the sum of
squared class proportions — that lies in [0, 1] and equals 0 when all
recorded bytes belong to a single class.  For the histogram with no recorded
bytes the `f64` code divides 0.0 by 0.0 and yields NaN rather than a value in
[0, 1] (see the counterexample). -/
theorem gini_impurity_bounds (x : ColumnComplexity) (h : x.total ≠ 0) :
    ∃ q : ℚ, x.gini_impurity = some q ∧ 0 ≤ q ∧ q ≤ 1 ∧
      (∀ c : CharacterClass, x.class_counts c = x.total → q = 0) := by
  have htpos : (0 : ℚ) < (x.total : ℚ) * (x.total : ℚ) := by
    have ht : (0 : ℚ) < (x.total : ℚ) := by
      exact_mod_cast Nat.pos_of_ne_zero h
    positivity
  refine ⟨1 - (x.sq_sum : ℚ) / ((x.total : ℚ) * (x.total : ℚ)),
    gini_impurity_eq_sq_sum x h, ?_, ?_, ?_⟩
  · have hle : (x.sq_sum : ℚ) / ((x.total : ℚ) * (x.total : ℚ)) ≤ 1 := by
      rw [div_le_one htpos]
      exact_mod_cast sq_sum_le_total_sq x
    linarith
  · have hge : 0 ≤ (x.sq_sum : ℚ) / ((x.total : ℚ) * (x.total : ℚ)) := by
      positivity
    linarith
  · intro c hc
    have hsq : x.sq_sum = x.total * x.total := by
      refine le_antisymm (sq_sum_le_total_sq x) ?_
      calc x.total * x.total = x.class_counts c * x.class_counts c := by rw [hc]
        _ ≤ x.sq_sum := sq_term_le_sq_sum x c
    rw [hsq]
    push_cast
    field_simp

theorem gini_impurity_bounds_witness :
    ∃ q : ℚ,
      (ColumnComplexity.from_byte_slice_iter [[48, 48]]).gini_impurity = some q ∧
      0 ≤ q ∧ q ≤ 1 ∧
      (∀ c : CharacterClass,
        (ColumnComplexity.from_byte_slice_iter [[48, 48]]).class_counts c =
          (ColumnComplexity.from_byte_slice_iter [[48, 48]]).total → q = 0) :=
  gini_impurity_bounds (ColumnComplexity.from_byte_slice_iter [[48, 48]])
    (by decide)

/-- C6 counterexample: the reachable histogram with no bytes recorded has no
rational gini impurity at all — every proportion in the `f64` code is
`0.0 / 0.0` (NaN), so the result is NaN, not a number in [0, 1]. -/
theorem gini_impurity_empty_nan :
    ColumnComplexity.gini_impurity (ColumnComplexity.from_byte_slice_iter []) =
      none := rfl

/-- Adding one byte increments the histogram total by exactly one. -/
theorem add_byte_total (x : ColumnComplexity) (b : Nat) :
    (x.add_byte b).total = x.total + 1 := by
  unfold ColumnComplexity.total ColumnComplexity.add_byte
  cases hcb : CharacterClass.from_byte b <;> simp [hcb] <;> omega

/-- Adding one byte of a class with current count `cj` changes the sum of
squared counts by `2·cj + 1`. -/
theorem add_byte_sq_sum (x : ColumnComplexity) (b : Nat) :
    (x.add_byte b).sq_sum =
      x.sq_sum + 2 * x.class_counts (CharacterClass.from_byte b) + 1 := by
  unfold ColumnComplexity.sq_sum ColumnComplexity.add_byte
  cases hcb : CharacterClass.from_byte b <;> simp [hcb] <;> ring

theorem gini_step_dominant (S t cj : Nat) (hS : S ≤ t * cj) (hjt : cj ≤ t) :
    S * ((t + 1) * (t + 1)) ≤ (S + 2 * cj + 1) * (t * t) := by
  have h1 : S * (2 * t + 1) ≤ (t * t) * (2 * cj + 1) := by
    calc S * (2 * t + 1) ≤ (t * cj) * (2 * t + 1) := Nat.mul_le_mul_right _ hS
      _ = 2 * (t * t) * cj + t * cj := by ring
      _ ≤ 2 * (t * t) * cj + t * t :=
        Nat.add_le_add_left (Nat.mul_le_mul_left t hjt) _
      _ = (t * t) * (2 * cj + 1) := by ring
  calc S * ((t + 1) * (t + 1)) = S * (t * t) + S * (2 * t + 1) := by ring
    _ ≤ S * (t * t) + (t * t) * (2 * cj + 1) := Nat.add_le_add_left h1 _
    _ = (S + 2 * cj + 1) * (t * t) := by ring

theorem gini_step_new (S t : Nat) (hS : t ≤ S) :
    (S + 1) * (t * t) ≤ S * ((t + 1) * (t + 1)) := by
  have h1 : t * t ≤ S * (2 * t + 1) := by
    calc t * t ≤ t * (2 * t + 1) := Nat.mul_le_mul_left t (by omega)
      _ ≤ S * (2 * t + 1) := Nat.mul_le_mul_right _ hS
  calc (S + 1) * (t * t) = S * (t * t) + t * t := by ring
    _ ≤ S * (t * t) + S * (2 * t + 1) := Nat.add_le_add_left h1 _
    _ = S * ((t + 1) * (t + 1)) := by ring

/-- C7 (amended): on a non-empty histogram, adding one byte whose class
already has the largest count does not increase the gini impurity, and adding
one byte of a class not yet present does not decrease it.  (Adding a byte of
a minority class that is already present can strictly decrease the score —
see the counterexample.) -/
theorem gini_impurity_add_byte_monotone (x : ColumnComplexity) (b : Nat)
    (h : x.total ≠ 0) :
    ∃ q q' : ℚ, x.gini_impurity = some q ∧
      (x.add_byte b).gini_impurity = some q' ∧
      ((∀ c, x.class_counts c ≤ x.class_counts (CharacterClass.from_byte b)) →
        q' ≤ q) ∧
      (x.class_counts (CharacterClass.from_byte b) = 0 → q ≤ q') := by
  have h' : (x.add_byte b).total ≠ 0 := by
    rw [add_byte_total]
    omega
  have pos1 : (0 : ℚ) < (x.total : ℚ) * (x.total : ℚ) := by
    exact_mod_cast Nat.mul_pos (Nat.pos_of_ne_zero h) (Nat.pos_of_ne_zero h)
  have pos2 : (0 : ℚ) < ((x.total + 1 : ℕ) : ℚ) * ((x.total + 1 : ℕ) : ℚ) := by
    exact_mod_cast Nat.mul_pos (Nat.succ_pos x.total) (Nat.succ_pos x.total)
  refine ⟨_, _, gini_impurity_eq_sq_sum x h, gini_impurity_eq_sq_sum _ h', ?_, ?_⟩
  · intro hdom
    rw [add_byte_total, add_byte_sq_sum]
    have hnat : x.sq_sum * ((x.total + 1) * (x.total + 1)) ≤
        (x.sq_sum + 2 * x.class_counts (CharacterClass.from_byte b) + 1) *
          (x.total * x.total) :=
      gini_step_dominant _ _ _ (sq_sum_le_total_mul x _ hdom)
        (class_counts_le_total x _)
    have key : (x.sq_sum : ℚ) / ((x.total : ℚ) * (x.total : ℚ)) ≤
        ((x.sq_sum + 2 * x.class_counts (CharacterClass.from_byte b) + 1 : ℕ) : ℚ) /
          (((x.total + 1 : ℕ) : ℚ) * ((x.total + 1 : ℕ) : ℚ)) := by
      rw [div_le_div_iff pos1 pos2]
      exact_mod_cast hnat
    linarith
  · intro hz
    rw [add_byte_total, add_byte_sq_sum, hz]
    have hnat : (x.sq_sum + 2 * 0 + 1) * (x.total * x.total) ≤
        x.sq_sum * ((x.total + 1) * (x.total + 1)) := by
      simpa using gini_step_new x.sq_sum x.total (total_le_sq_sum x)
    have key : ((x.sq_sum + 2 * 0 + 1 : ℕ) : ℚ) /
          (((x.total + 1 : ℕ) : ℚ) * ((x.total + 1 : ℕ) : ℚ)) ≤
        (x.sq_sum : ℚ) / ((x.total : ℚ) * (x.total : ℚ)) := by
      rw [div_le_div_iff pos2 pos1]
      exact_mod_cast hnat
    linarith

theorem gini_impurity_add_byte_monotone_witness :
    ∃ q q' : ℚ,
      (ColumnComplexity.from_byte_slice_iter [[48, 48]]).gini_impurity = some q ∧
      ((ColumnComplexity.from_byte_slice_iter [[48, 48]]).add_byte 48).gini_impurity =
        some q' ∧
      ((∀ c, (ColumnComplexity.from_byte_slice_iter [[48, 48]]).class_counts c ≤
          (ColumnComplexity.from_byte_slice_iter [[48, 48]]).class_counts
            (CharacterClass.from_byte 48)) → q' ≤ q) ∧
      ((ColumnComplexity.from_byte_slice_iter [[48, 48]]).class_counts
          (CharacterClass.from_byte 48) = 0 → q ≤ q') :=
  gini_impurity_add_byte_monotone
    (ColumnComplexity.from_byte_slice_iter [[48, 48]]) 48 (by decide)

/-- The histogram of the bytes `0`, `0`, `a`, `!`, space, `"`: two digits and
one byte each in four other classes. -/
def minority_example : ColumnComplexity :=
  ColumnComplexity.from_byte_slice_iter [[48, 48, 97, 33, 32, 34]]

/-- C7 counterexample: with class counts Digit = 2 and Letter = Punctuation =
Whitespace = Quote = 1, adding one more letter byte — a minority class,
strictly below the dominant digit count — strictly decreases the gini
impurity, from 7/9 to 38/49. -/
theorem gini_impurity_minority_add_decreases :
    minority_example.class_counts (CharacterClass.from_byte 97) = 1 ∧
    minority_example.class_counts CharacterClass.Digit = 2 ∧
    minority_example.gini_impurity = some (7 / 9) ∧
    (minority_example.add_byte 97).gini_impurity = some (38 / 49) ∧
    (38 / 49 : ℚ) < 7 / 9 := by
  have ht : minority_example.total = 6 := by decide
  have hS : minority_example.sq_sum = 8 := by decide
  have ht' : (minority_example.add_byte 97).total = 7 := by decide
  have hS' : (minority_example.add_byte 97).sq_sum = 11 := by decide
  refine ⟨by decide, by decide, ?_, ?_, by norm_num⟩
  · rw [gini_impurity_eq_sq_sum _ (by rw [ht]; decide), ht, hS]
    norm_num
  · rw [gini_impurity_eq_sq_sum _ (by rw [ht']; decide), ht', hS']
    norm_num

/-- The byte at index `i` reaches the `b'\n'` arm or the delimiter guard arm
of the `Solution::new` scan (`src/csv/medium.rs`, lines 128–148): it is an LF,
or it equals the delimiter and is not byte 34 (the `b'"'` arm is matched
earlier, so a quote byte never reaches the delimiter arm, even when the
delimiter is the quote byte). -/
def scan_delimiter_hit (delim : Nat) (raw : List Nat) (i : Nat) : Bool :=
  raw.getD i 0 == 10 || (raw.getD i 0 != 34 && raw.getD i 0 == delim)

/-- The adjacency condition of the `b'"'` arm of the `Solution::new` scan:
`i == 0 || raw[i-1] == delimiter || raw[i-1] == b'\n' ||
raw[i-1..].starts_with(b"\r\n") || i == raw.len() - 1`.  The `starts_with`
clause reads the bytes at `i - 1` and `i`. -/
def quote_adjacency (delim : Nat) (raw : List Nat) (i : Nat) : Bool :=
  i == 0 || raw.getD (i - 1) 0 == delim || raw.getD (i - 1) 0 == 10 ||
    (raw.getD (i - 1) 0 == 13 && raw.getD i 0 == 10) || i == raw.length - 1

/-- The byte at index `i` is pushed onto `quote_locations` by the scan: it is
byte 34 (matched by the `b'"'` arm — byte 34 is never 10, so the `b'\n'` arm
cannot intercept it) and passes the adjacency pre-filter. -/
def scan_quote_hit (delim : Nat) (raw : List Nat) (i : Nat) : Bool :=
  raw.getD i 0 == 34 && quote_adjacency delim raw i

/-- The `delimiter_locations` produced by the scan loop of `Solution::new`:
the loop walks the indices in ascending order and pushes exactly those where
`scan_delimiter_hit` holds, hence the filter of the index range. -/
def delimiter_locations_scan (delim : Nat) (raw : List Nat) : List Nat :=
  (List.range raw.length).filter fun i => scan_delimiter_hit delim raw i

/-- The `quote_locations` produced by the scan loop of `Solution::new`. -/
def quote_locations_scan (delim : Nat) (raw : List Nat) : List Nat :=
  (List.range raw.length).filter fun i => scan_quote_hit delim raw i

/-- `Solution` from `src/csv/medium.rs`: masks over quote candidates are
lists of booleans indexed by candidate rank. -/
structure Solution where
  delimiter : Nat
  column_count : Option Nat
  column_complexities : List ColumnComplexity
  file_length : Nat
  delimiter_locations : List Nat
  quote_locations : List Nat
  quote_can_start : List Bool
  quote_can_end : List Bool

/-- Modelled from the spec: the `quote_valid` bitset — the spec's
"currently treated as structural" set over all quote candidates — which
`Solution::new` clones into the can-open/can-close masks but which is missing
from the sources.  Initially every quote candidate is treated as valid, one
bit per candidate. -/
def initial_quote_valid (quote_locations : List Nat) : List Bool :=
  List.replicate quote_locations.length true

/-- The state `Solution::new` builds before calling `default_heuristics`:
the scanned candidate locations, the buffer length, and the initial masks. -/
def pre_solution (raw : List Nat) (delim : Nat) : Solution :=
  { delimiter := delim
    column_count := none
    column_complexities := []
    file_length := raw.length
    delimiter_locations := delimiter_locations_scan delim raw
    quote_locations := quote_locations_scan delim raw
    quote_can_start := initial_quote_valid (quote_locations_scan delim raw)
    quote_can_end := initial_quote_valid (quote_locations_scan delim raw) }

/-- `prev` of `default_heuristics`: the candidate is at offset 0 or the
previous offset is a recorded delimiter location
(`binary_search(..).is_ok()` on the ascending `delimiter_locations` is
embedded as list membership). -/
def quote_prev_invalid (s : Solution) (qb : Nat) : Bool :=
  qb == 0 || s.delimiter_locations.contains (qb - 1)

/-- `next` of `default_heuristics`: the candidate is the last offset of the
buffer or the next offset is a recorded delimiter location. -/
def quote_next_invalid (s : Solution) (qb : Nat) : Bool :=
  qb == s.file_length - 1 || s.delimiter_locations.contains (qb + 1)

/-- Walk the quote candidates and their mask in lockstep, forcing the bit to
false where the rule fires (the `set(quote_num, false)` calls of the
per-candidate loop). -/
def apply_rule (f : Nat → Bool) : List Nat → List Bool → List Bool
  | [], m => m
  | _ :: _, [] => []
  | qb :: qs, b :: m => (if f qb then false else b) :: apply_rule f qs m

/-- Rewrite a mask position-wise (used to model the range-clears on the
bitvec slices). -/
def mask_map_idx (f : Nat → Bool → Bool) : Nat → List Bool → List Bool
  | _, [] => []
  | i, b :: rest => f i b :: mask_map_idx f (i + 1) rest

/-- Clear every mask bit at an index below `k`
(`&mut mask[..k] { set(false) }`). -/
def clear_before (k : Nat) (m : List Bool) : List Bool :=
  mask_map_idx (fun j b => if j < k then false else b) 0 m

/-- Clear every mask bit at an index at or above `k`
(`&mut mask[k..] { set(false) }`). -/
def clear_from (k : Nat) (m : List Bool) : List Bool :=
  mask_map_idx (fun j b => if k ≤ j then false else b) 0 m

/-- `BitVec::first_one`: the least index holding `true`. -/
def first_one (m : List Bool) : Option Nat := m.findIdx? fun b => b

/-- `BitVec::last_one`: the greatest index holding `true`. -/
def last_one (m : List Bool) : Option Nat :=
  m.enum.foldl (fun acc p => if p.2 then some p.1 else acc) none

/-- The per-candidate loop of `default_heuristics` (`src/csv/medium.rs`,
lines 161–178): clear can-open where `prev` fires and can-close where `next`
fires. -/
def per_quote_rules (s : Solution) : Solution :=
  { s with
    quote_can_start :=
      apply_rule (fun qb => quote_prev_invalid s qb) s.quote_locations s.quote_can_start
    quote_can_end :=
      apply_rule (fun qb => quote_next_invalid s qb) s.quote_locations s.quote_can_end }

/-- The first global constraint of `default_heuristics` (lines 179–183):
clear every can-close bit before the first surviving can-open index
(`first_one().unwrap_or(0)`). -/
def clear_end_before_first_start (s : Solution) : Solution :=
  { s with
    quote_can_end := clear_before ((first_one s.quote_can_start).getD 0) s.quote_can_end }

/-- The second global constraint of `default_heuristics` (lines 184–188):
clear every can-open bit from the last surviving can-close index on
(`last_one().unwrap_or(0)..`). -/
def clear_start_after_last_end (s : Solution) : Solution :=
  { s with
    quote_can_start := clear_from ((last_one s.quote_can_end).getD 0) s.quote_can_start }

/-- `Solution::default_heuristics`: the per-candidate rules followed by the
two global constraints, in source order. -/
def default_heuristics (s : Solution) : Solution :=
  clear_start_after_last_end (clear_end_before_first_start (per_quote_rules s))

/-- `Solution::new`: scan the buffer, initialize the masks, and apply the
default heuristics. -/
def Solution.new (raw : List Nat) (delim : Nat) : Solution :=
  default_heuristics (pre_solution raw delim)

theorem mem_delimiter_locations_scan (raw : List Nat) (delim : Nat)
    (h34 : delim ≠ 34) (p : Nat) :
    p ∈ delimiter_locations_scan delim raw ↔
      p < raw.length ∧ (raw.getD p 0 = 10 ∨ raw.getD p 0 = delim) := by
  unfold delimiter_locations_scan scan_delimiter_hit
  simp only [List.mem_filter, List.mem_range, Bool.or_eq_true, Bool.and_eq_true,
    beq_iff_eq, bne_iff_ne, ne_eq, decide_eq_true_eq]
  omega

theorem mem_quote_locations_scan (raw : List Nat) (delim : Nat) (p : Nat) :
    p ∈ quote_locations_scan delim raw ↔
      p < raw.length ∧ raw.getD p 0 = 34 ∧
        (p = 0 ∨ raw.getD (p - 1) 0 = delim ∨ raw.getD (p - 1) 0 = 10 ∨
          p = raw.length - 1) := by
  unfold quote_locations_scan scan_quote_hit quote_adjacency
  simp only [List.mem_filter, List.mem_range, Bool.or_eq_true, Bool.and_eq_true,
    beq_iff_eq, bne_iff_ne, ne_eq, decide_eq_true_eq]
  omega

/-- C4 (amended): the single scan of `Solution::new` records every LF offset
and every delimiter-byte offset — both into the `delimiter_locations`
sequence; carriage-return bytes are not recorded at all — and exactly those
quote-byte offsets whose previous byte is the delimiter or an LF, or which
are the very first or last byte of the buffer (the following byte is never
consulted, and the scan's `\r\n` look-behind clause can never fire on a quote
byte); both recorded offset sequences are strictly ascending. -/
theorem solution_new_scan_characterization (raw : List Nat) (delim : Nat)
    (h34 : delim ≠ 34) :
    (∀ p, p ∈ (Solution.new raw delim).delimiter_locations ↔
      p < raw.length ∧ (raw.getD p 0 = 10 ∨ raw.getD p 0 = delim)) ∧
    (∀ p, p ∈ (Solution.new raw delim).quote_locations ↔
      p < raw.length ∧ raw.getD p 0 = 34 ∧
        (p = 0 ∨ raw.getD (p - 1) 0 = delim ∨ raw.getD (p - 1) 0 = 10 ∨
          p = raw.length - 1)) ∧
    List.Pairwise (· < ·) (Solution.new raw delim).delimiter_locations ∧
    List.Pairwise (· < ·) (Solution.new raw delim).quote_locations ∧
    (∀ p, p < raw.length → raw.getD p 0 = 13 → delim ≠ 13 →
      p ∉ (Solution.new raw delim).delimiter_locations ∧
      p ∉ (Solution.new raw delim).quote_locations) := by
  have hds : (Solution.new raw delim).delimiter_locations =
      delimiter_locations_scan delim raw := rfl
  have hqs : (Solution.new raw delim).quote_locations =
      quote_locations_scan delim raw := rfl
  refine ⟨?_, ?_, ?_, ?_, ?_⟩
  · intro p
    rw [hds]
    exact mem_delimiter_locations_scan raw delim h34 p
  · intro p
    rw [hqs]
    exact mem_quote_locations_scan raw delim p
  · rw [hds]
    exact (List.pairwise_lt_range raw.length).sublist (List.filter_sublist _)
  · rw [hqs]
    exact (List.pairwise_lt_range raw.length).sublist (List.filter_sublist _)
  · intro p hp h13 hd13
    constructor
    · rw [hds, mem_delimiter_locations_scan raw delim h34 p]
      omega
    · rw [hqs, mem_quote_locations_scan raw delim p]
      omega

/-- C4 counterexample: for the buffer `a<CR>",b` (bytes 97 13 34 44 98) with
delimiter 44, the CR at offset 1 is a Newline-class byte yet is recorded in
neither offset sequence, and for the buffer `a",b` (bytes 97 34 44 98) the
quote at offset 1 is immediately followed by the delimiter yet is not
recorded as a quote candidate — refuting both the "every Newline-class
offset" and the "next byte is a delimiter" parts of the claimed pre-filter. -/
theorem solution_new_scan_counterexample :
    CharacterClass.from_byte 13 = CharacterClass.Newline ∧
    (Solution.new [97, 13, 34, 44, 98] 44).delimiter_locations = [3] ∧
    (Solution.new [97, 13, 34, 44, 98] 44).quote_locations = [] ∧
    1 ∉ (Solution.new [97, 13, 34, 44, 98] 44).delimiter_locations ∧
    1 ∉ (Solution.new [97, 13, 34, 44, 98] 44).quote_locations ∧
    ([97, 34, 44, 98] : List Nat).getD 2 0 = 44 ∧
    1 ∉ (Solution.new [97, 34, 44, 98] 44).quote_locations := by
  decide

theorem solution_new_scan_characterization_witness :
    1 ∈ (Solution.new [97, 10, 44, 34] 44).delimiter_locations ∧
    3 ∈ (Solution.new [97, 10, 44, 34] 44).quote_locations :=
  ⟨((solution_new_scan_characterization [97, 10, 44, 34] 44 (by decide)).1 1).mpr
      (by decide),
    ((solution_new_scan_characterization [97, 10, 44, 34] 44 (by decide)).2.1 3).mpr
      (by decide)⟩

theorem apply_rule_length (f : Nat → Bool) (qs : List Nat) (m : List Bool) :
    (apply_rule f qs m).length = m.length := by
  induction qs generalizing m with
  | nil => rfl
  | cons qb qs ih =>
    cases m with
    | nil => rfl
    | cons b m => simp [apply_rule, ih]

theorem apply_rule_getD (f : Nat → Bool) (qs : List Nat) (m : List Bool)
    (i : Nat) (hq : i < qs.length) (hm : i < m.length) :
    (apply_rule f qs m).getD i false =
      if f (qs.getD i 0) then false else m.getD i false := by
  induction qs generalizing m i with
  | nil => simp at hq
  | cons qb qs ih =>
    cases m with
    | nil => simp at hm
    | cons b m =>
      cases i with
      | zero => simp [apply_rule]
      | succ i =>
        simp only [apply_rule, List.getD_cons_succ]
        exact ih m i (by simpa using hq) (by simpa using hm)

theorem mask_map_idx_length (f : Nat → Bool → Bool) (s : Nat) (m : List Bool) :
    (mask_map_idx f s m).length = m.length := by
  induction m generalizing s with
  | nil => rfl
  | cons b m ih => simp [mask_map_idx, ih]

theorem mask_map_idx_getD (f : Nat → Bool → Bool) (s : Nat) (m : List Bool)
    (i : Nat) (hm : i < m.length) :
    (mask_map_idx f s m).getD i false = f (s + i) (m.getD i false) := by
  induction m generalizing s i with
  | nil => simp at hm
  | cons b m ih =>
    cases i with
    | zero => simp [mask_map_idx]
    | succ i =>
      simp only [mask_map_idx, List.getD_cons_succ]
      rw [ih (s + 1) i (by simpa using hm),
        show s + 1 + i = s + (i + 1) from by omega]

theorem clear_before_getD (k : Nat) (m : List Bool) (i : Nat) (hm : i < m.length) :
    (clear_before k m).getD i false =
      if i < k then false else m.getD i false := by
  unfold clear_before
  rw [mask_map_idx_getD _ 0 m i hm]
  simp

theorem clear_from_getD (k : Nat) (m : List Bool) (i : Nat) (hm : i < m.length) :
    (clear_from k m).getD i false =
      if k ≤ i then false else m.getD i false := by
  unfold clear_from
  rw [mask_map_idx_getD _ 0 m i hm]
  simp

/-- C5: after constraint initialization (`Solution::new` running
`default_heuristics` over the spec-modelled all-true `quote_valid` masks),
for every quote candidate: the can-open bit is false whenever the preceding
byte is the delimiter or an LF or the candidate sits at buffer start; the
can-close bit is false whenever the following byte is the delimiter or an LF
or the candidate is the buffer's last byte; every can-close bit before the
first can-open index surviving the per-quote rules is false; and every
can-open bit strictly after the last surviving can-close index is false. -/
theorem default_heuristics_quote_constraints (raw : List Nat) (delim : Nat)
    (h34 : delim ≠ 34) (i : Nat)
    (hi : i < (Solution.new raw delim).quote_locations.length) :
    ((Solution.new raw delim).quote_locations.getD i 0 = 0 ∨
      raw.getD ((Solution.new raw delim).quote_locations.getD i 0 - 1) 0 = delim ∨
      raw.getD ((Solution.new raw delim).quote_locations.getD i 0 - 1) 0 = 10 →
      (Solution.new raw delim).quote_can_start.getD i false = false) ∧
    ((Solution.new raw delim).quote_locations.getD i 0 = raw.length - 1 ∨
      raw.getD ((Solution.new raw delim).quote_locations.getD i 0 + 1) 0 = delim ∨
      raw.getD ((Solution.new raw delim).quote_locations.getD i 0 + 1) 0 = 10 →
      (Solution.new raw delim).quote_can_end.getD i false = false) ∧
    (∀ k, first_one (per_quote_rules (pre_solution raw delim)).quote_can_start =
        some k → i < k →
      (Solution.new raw delim).quote_can_end.getD i false = false) ∧
    (∀ m, last_one (clear_end_before_first_start
          (per_quote_rules (pre_solution raw delim))).quote_can_end = some m →
        m < i →
      (Solution.new raw delim).quote_can_start.getD i false = false) := by
  have hi' : i < (quote_locations_scan delim raw).length := hi
  have hqb_lt : (quote_locations_scan delim raw).getD i 0 ∈
      quote_locations_scan delim raw := by
    simp only [List.getD_eq_getElem?_getD, List.getElem?_eq_getElem hi',
      Option.getD_some]
    exact List.getElem_mem hi'
  have hqb := (mem_quote_locations_scan raw delim _).mp hqb_lt
  have hcs : (Solution.new raw delim).quote_can_start =
      clear_from ((last_one (clear_end_before_first_start
          (per_quote_rules (pre_solution raw delim))).quote_can_end).getD 0)
        ((per_quote_rules (pre_solution raw delim)).quote_can_start) := rfl
  have hce : (Solution.new raw delim).quote_can_end =
      clear_before ((first_one
          (per_quote_rules (pre_solution raw delim)).quote_can_start).getD 0)
        ((per_quote_rules (pre_solution raw delim)).quote_can_end) := rfl
  have hcs1 : (per_quote_rules (pre_solution raw delim)).quote_can_start =
      apply_rule (fun qb => quote_prev_invalid (pre_solution raw delim) qb)
        (quote_locations_scan delim raw)
        (initial_quote_valid (quote_locations_scan delim raw)) := rfl
  have hce1 : (per_quote_rules (pre_solution raw delim)).quote_can_end =
      apply_rule (fun qb => quote_next_invalid (pre_solution raw delim) qb)
        (quote_locations_scan delim raw)
        (initial_quote_valid (quote_locations_scan delim raw)) := rfl
  have hlen0 : (initial_quote_valid (quote_locations_scan delim raw)).length =
      (quote_locations_scan delim raw).length := List.length_replicate _ _
  have hlen1 : (per_quote_rules (pre_solution raw delim)).quote_can_start.length =
      (quote_locations_scan delim raw).length := by
    rw [hcs1, apply_rule_length, hlen0]
  have hlen2 : (per_quote_rules (pre_solution raw delim)).quote_can_end.length =
      (quote_locations_scan delim raw).length := by
    rw [hce1, apply_rule_length, hlen0]
  refine ⟨?_, ?_, ?_, ?_⟩
  · intro hyp
    rw [hcs, clear_from_getD _ _ i (by rw [hlen1]; exact hi')]
    split
    · rfl
    · rw [hcs1, apply_rule_getD _ _ _ i hi' (by rw [hlen0]; exact hi')]
      have hprev : quote_prev_invalid (pre_solution raw delim)
          ((quote_locations_scan delim raw).getD i 0) = true := by
        unfold quote_prev_invalid
        simp only [Bool.or_eq_true, beq_iff_eq, List.elem_eq_mem,
          decide_eq_true_eq]
        by_cases h0 : (quote_locations_scan delim raw).getD i 0 = 0
        · exact Or.inl h0
        · refine Or.inr ?_
          show (quote_locations_scan delim raw).getD i 0 - 1 ∈
            delimiter_locations_scan delim raw
          rw [mem_delimiter_locations_scan raw delim h34]
          rcases hyp with h | h | h
          · exact absurd h h0
          · exact ⟨by omega, Or.inr h⟩
          · exact ⟨by omega, Or.inl h⟩
      rw [hprev]
      simp
  · intro hyp
    rw [hce, clear_before_getD _ _ i (by rw [hlen2]; exact hi')]
    split
    · rfl
    · rw [hce1, apply_rule_getD _ _ _ i hi' (by rw [hlen0]; exact hi')]
      have hnext : quote_next_invalid (pre_solution raw delim)
          ((quote_locations_scan delim raw).getD i 0) = true := by
        unfold quote_next_invalid
        simp only [Bool.or_eq_true, beq_iff_eq, List.elem_eq_mem,
          decide_eq_true_eq]
        by_cases hlast : (quote_locations_scan delim raw).getD i 0 =
            raw.length - 1
        · exact Or.inl hlast
        · refine Or.inr ?_
          show (quote_locations_scan delim raw).getD i 0 + 1 ∈
            delimiter_locations_scan delim raw
          rw [mem_delimiter_locations_scan raw delim h34]
          rcases hyp with h | h | h
          · exact absurd h hlast
          · exact ⟨by omega, Or.inr h⟩
          · exact ⟨by omega, Or.inl h⟩
      rw [hnext]
      simp
  · intro k hk hik
    rw [hce, clear_before_getD _ _ i (by rw [hlen2]; exact hi'), hk]
    simp only [Option.getD_some]
    rw [if_pos hik]
  · intro m hm hmi
    rw [hcs, clear_from_getD _ _ i (by rw [hlen1]; exact hi'), hm]
    simp only [Option.getD_some]
    rw [if_pos (by omega)]

theorem default_heuristics_quote_constraints_witness :
    (((Solution.new [34, 97, 44, 34] 44).quote_locations.getD 0 0 = 0 ∨
      ([34, 97, 44, 34] : List Nat).getD
        ((Solution.new [34, 97, 44, 34] 44).quote_locations.getD 0 0 - 1) 0 = 44 ∨
      ([34, 97, 44, 34] : List Nat).getD
        ((Solution.new [34, 97, 44, 34] 44).quote_locations.getD 0 0 - 1) 0 = 10 →
      (Solution.new [34, 97, 44, 34] 44).quote_can_start.getD 0 false = false) ∧
    ((Solution.new [34, 97, 44, 34] 44).quote_locations.getD 0 0 =
        ([34, 97, 44, 34] : List Nat).length - 1 ∨
      ([34, 97, 44, 34] : List Nat).getD
        ((Solution.new [34, 97, 44, 34] 44).quote_locations.getD 0 0 + 1) 0 = 44 ∨
      ([34, 97, 44, 34] : List Nat).getD
        ((Solution.new [34, 97, 44, 34] 44).quote_locations.getD 0 0 + 1) 0 = 10 →
      (Solution.new [34, 97, 44, 34] 44).quote_can_end.getD 0 false = false) ∧
    (∀ k, first_one (per_quote_rules
          (pre_solution [34, 97, 44, 34] 44)).quote_can_start = some k → 0 < k →
      (Solution.new [34, 97, 44, 34] 44).quote_can_end.getD 0 false = false) ∧
    (∀ m, last_one (clear_end_before_first_start (per_quote_rules
          (pre_solution [34, 97, 44, 34] 44))).quote_can_end = some m → m < 0 →
      (Solution.new [34, 97, 44, 34] 44).quote_can_start.getD 0 false = false)) ∧
    0 < (Solution.new [34, 97, 44, 34] 44).quote_locations.length :=
  ⟨default_heuristics_quote_constraints [34, 97, 44, 34] 44 (by decide) 0
    (by decide), by decide⟩

end Debtk
